import Mathlib

/-!
Verification development for the EUROPA constraint propagation engine.

The development shallowly embeds the repository's code:
 - `IntervalIntTypeFactory` (ConstraintEngine/component/IntervalIntTypeFactory.cc),
 - the error facility (Utils/base/Error.hh: `check_error`, `check_runtime_error`,
   `EUROPA_ERROR`, class `Error`),
 - `DebugMessage::markerMatches` (Utils/base/DebugMsg.hh),
and, for the parts of the engine whose implementation files are not present
(the Domain classes and the ConstraintEngine propagation loop, which are only
forward-declared in ConstraintEngineDefs.hh), models them from the
specification's description of the domain algebra and the agenda-driven
fixpoint algorithm.
-/

namespace EUROPA

/-- Modelled from the spec: the closed tagged union of domain kinds
(Interval with numeric bounds, IntervalInt with integer bounds,
Enumerated/Bool/Label with an explicit member set; Enumerated and Label also
carry the is-open flag).  The Domain classes themselves are only
forward-declared in the sources at hand (ConstraintEngineDefs.hh). -/
inductive Domain where
  | interval (lb ub : Rat)
  | intervalInt (lb ub : Int)
  | enumerated (members : List Int) (isOpen : Bool)
  | boolD (members : List Bool)
  | label (members : List String) (isOpen : Bool)
deriving DecidableEq, Repr

/-- Modelled from the spec: `intersect(other)` — Interval/IntervalInt take
elementwise max of lower bounds and min of upper bounds (integer bounds are
already integral, so the inward rounding is the identity); the enumerated
kinds take the member-set intersection.  A kind mismatch is a model error
caught elsewhere; the dispatch here leaves the receiver unchanged. -/
def Domain.intersect : Domain → Domain → Domain
  | .interval lb ub, .interval lb2 ub2 => .interval (max lb lb2) (min ub ub2)
  | .intervalInt lb ub, .intervalInt lb2 ub2 => .intervalInt (max lb lb2) (min ub ub2)
  | .enumerated m o, .enumerated m2 _ => .enumerated (m.filter (fun x => m2.contains x)) o
  | .boolD m, .boolD m2 => .boolD (m.filter (fun x => m2.contains x))
  | .label m o, .label m2 _ => .label (m.filter (fun x => m2.contains x)) o
  | d, _ => d

/-- Modelled from the spec: representational subset test between domains of
the same kind (bounds nested for the interval kinds, member containment for
the enumerated kinds); domains of different kinds are never subsets. -/
def Domain.subsetOf : Domain → Domain → Bool
  | .interval lb ub, .interval lb2 ub2 => decide (lb2 ≤ lb) && decide (ub ≤ ub2)
  | .intervalInt lb ub, .intervalInt lb2 ub2 => decide (lb2 ≤ lb) && decide (ub ≤ ub2)
  | .enumerated m _, .enumerated m2 _ => m.all (fun x => m2.contains x)
  | .boolD m, .boolD m2 => m.all (fun x => m2.contains x)
  | .label m _, .label m2 _ => m.all (fun x => m2.contains x)
  | _, _ => false

/-- Modelled from the spec: a domain is empty when the bounds cross
(interval kinds) or the member set is empty (enumerated kinds). -/
def Domain.isEmptyD : Domain → Bool
  | .interval lb ub => decide (ub < lb)
  | .intervalInt lb ub => decide (ub < lb)
  | .enumerated m _ => m.isEmpty
  | .boolD m => m.isEmpty
  | .label m _ => m.isEmpty

theorem filter_contains_self {α : Type} [BEq α] [LawfulBEq α] (m : List α) :
    m.filter (fun x => m.contains x) = m := by
  apply List.filter_eq_self.mpr
  intro a ha
  simpa [List.elem_iff] using ha

theorem filter_contains_of_all {α : Type} [BEq α] [LawfulBEq α] (m m2 : List α)
    (h : m.all (fun x => m2.contains x) = true) :
    m.filter (fun x => m2.contains x) = m := by
  apply List.filter_eq_self.mpr
  intro a ha
  exact List.all_eq_true.mp h a ha

/-- C6: for every domain D, `D.intersect D` leaves D unchanged (idempotence),
and for every domain D and base domain `base` with D a subset of `base`,
`D.intersect base` leaves D unchanged (identity of intersect on any
superset). -/
theorem intersect_idempotent_and_superset_identity :
    (∀ D : Domain, D.intersect D = D) ∧
    (∀ D base : Domain, D.subsetOf base = true → D.intersect base = D) := by
  constructor
  · intro D
    cases D with
    | interval lb ub => simp [Domain.intersect]
    | intervalInt lb ub => simp [Domain.intersect]
    | enumerated m o => simp [Domain.intersect, filter_contains_self]
    | boolD m => simp [Domain.intersect, filter_contains_self]
    | label m o => simp [Domain.intersect, filter_contains_self]
  · intro D base h
    cases D <;> cases base <;> simp_all [Domain.intersect, Domain.subsetOf]

/-- C6 witness: the superset-identity part applied at D = [1,5],
base = [0,10] over integer bounds. -/
theorem intersect_superset_identity_witness :
    (Domain.intervalInt 1 5).subsetOf (Domain.intervalInt 0 10) = true ∧
    (Domain.intervalInt 1 5).intersect (Domain.intervalInt 0 10) =
      Domain.intervalInt 1 5 :=
  ⟨by decide,
   intersect_idempotent_and_superset_identity.2
     (Domain.intervalInt 1 5) (Domain.intervalInt 0 10) (by decide)⟩

/-- The data of class Error (Utils/base/Error.hh lines 270-533): the failed
condition, the extra message, the source file, the source line, and the
error's type string. -/
structure Error where
  m_condition : String
  m_msg : String
  m_file : String
  m_line : Int
  m_type : String
deriving DecidableEq, Repr

/-- The inline message-only constructor Error(msg) (Error.hh lines 304-306):
empty condition and file, line 0, type initialised to the literal
"Error". -/
def Error.mkMsg (msg : String) : Error :=
  ⟨"", msg, "", 0, "Error"⟩

/-- The four-field constructor Error(condition, msg, file, line) declared at
Error.hh line 282; its body is in Error.cc, which is not among the sources.
Modelled from the spec: it records the condition, message, file and line of
the failed check; the type defaults to "Error". -/
def Error.ctor4 (condition msg file : String) (line : Int) : Error :=
  ⟨condition, msg, file, line, "Error"⟩

/-- The inline copy constructor Error(const Error&) (Error.hh lines 311-314):
copies m_condition, m_msg, m_file and m_line, and initialises m_type to the
literal "Error" — it does not copy err.m_type. -/
def Error.copyCtor (err : Error) : Error :=
  ⟨err.m_condition, err.m_msg, err.m_file, err.m_line, "Error"⟩

/-- The inline assignment operator (Error.hh lines 319-325): copies
m_condition, m_msg, m_file and m_line into the target and leaves the
target's m_type untouched (m_type is absent from the operator's body). -/
def Error.assign (target err : Error) : Error :=
  ⟨err.m_condition, err.m_msg, err.m_file, err.m_line, target.m_type⟩

/-- Error::setType (Error.hh lines 352-354). -/
def Error.setType (e : Error) (type : String) : Error :=
  { e with m_type := type }

/-- Error::getType (Error.hh lines 359-361). -/
def Error.getType (e : Error) : String :=
  e.m_type

/-- Error::operator== (Error.hh lines 435-440): compares m_condition, m_msg,
m_file and m_line; m_type does not take part. -/
def Error.eqOp (a b : Error) : Bool :=
  a.m_condition == b.m_condition && a.m_msg == b.m_msg &&
    a.m_file == b.m_file && a.m_line == b.m_line

/-- C9 counterexample: the claim asserts that after copying by the assignment
operator the copy's getType() is "Error" for every source Error; but the
assignment operator leaves the target's previous type in place, so assigning
onto a target whose type was set to "Other" yields getType() = "Other". -/
theorem error_assign_keeps_target_type_counterexample :
    (((Error.mkMsg "x").setType "Other").assign
        ((Error.mkMsg "m").setType "MyType")).getType = "Other" ∧
    (((Error.mkMsg "x").setType "Other").assign
        ((Error.mkMsg "m").setType "MyType")).getType ≠ "Error" := by
  constructor
  · rfl
  · decide

/-- C9 amended: neither copy operation preserves the type field, but they
differ — the copy constructor initialises the copy's type to "Error"
regardless of the type set on the source, while the assignment operator
copies condition, message, file and line and leaves the assigned-to
object's previous type unchanged (the source's type is not copied);
operator== ignores the type field. -/
theorem error_copy_semantics :
    (∀ e : Error, (Error.copyCtor e).getType = "Error") ∧
    (∀ t e : Error, t.assign e =
      ⟨e.m_condition, e.m_msg, e.m_file, e.m_line, t.m_type⟩) ∧
    (∀ a b : Error, a.eqOp b = true ↔
      (a.m_condition = b.m_condition ∧ a.m_msg = b.m_msg ∧
       a.m_file = b.m_file ∧ a.m_line = b.m_line)) := by
  refine ⟨fun e => rfl, fun t e => rfl, fun a b => ?_⟩
  simp [Error.eqOp, and_assoc]

/-- C9 amended witness: the three parts at concrete Errors with types
"MyType" and "Other". -/
theorem error_copy_semantics_witness :
    (Error.copyCtor ((Error.mkMsg "m").setType "MyType")).getType = "Error" ∧
    (((Error.mkMsg "x").setType "Other").assign
        ((Error.mkMsg "m").setType "MyType")).m_type = "Other" ∧
    ((Error.mkMsg "m").eqOp (Error.mkMsg "m") = true ↔
      ((Error.mkMsg "m").m_condition = (Error.mkMsg "m").m_condition ∧
       (Error.mkMsg "m").m_msg = (Error.mkMsg "m").m_msg ∧
       (Error.mkMsg "m").m_file = (Error.mkMsg "m").m_file ∧
       (Error.mkMsg "m").m_line = (Error.mkMsg "m").m_line)) :=
  ⟨error_copy_semantics.1 ((Error.mkMsg "m").setType "MyType"),
   congrArg Error.m_type (error_copy_semantics.2.1
     ((Error.mkMsg "x").setType "Other") ((Error.mkMsg "m").setType "MyType")),
   error_copy_semantics.2.2 (Error.mkMsg "m") (Error.mkMsg "m")⟩

/-- Outcome of the EUROPA_ERROR macro (Error.hh line 66): either the Error is
thrown as a C++ exception, or handleAssert() runs; handleAssert is declared
noreturn (Error.hh line 519), so the aborted outcome never returns control
to the call site. -/
inductive ErrorOutcome where
  | thrown (e : Error)
  | aborted (e : Error)
deriving DecidableEq, Repr

/-- EUROPA_ERROR(e) (Error.hh line 66): if Error::throwEnabled() then
throw e else e.handleAssert(). -/
def EUROPA_ERROR (throwEnabled : Bool) (e : Error) : ErrorOutcome :=
  if throwEnabled then .thrown e else .aborted e

/-- The check_error / checkError expansions: in a non-FAST build
(Error.hh lines 164-200), a false condition builds the Error and hands it to
EUROPA_ERROR; under EUROPA_FAST (lines 111-116) the expansion is empty, so
nothing is evaluated and nothing is raised.  `fast` selects the build. -/
def check_error_run (fast throwEnabled cond : Bool) (e : Error) :
    Option ErrorOutcome :=
  if fast then none
  else if cond then none
  else some (EUROPA_ERROR throwEnabled e)

/-- The check_runtime_error expansion (Error.hh lines 230-244): present in
every build; a false condition builds the Error and hands it to
EUROPA_ERROR. -/
def check_runtime_error_run (throwEnabled cond : Bool) (e : Error) :
    Option ErrorOutcome :=
  if cond then none else some (EUROPA_ERROR throwEnabled e)

/-- C3: every failed check_error / checkError (active build) and every failed
check_runtime_error routes its Error through EUROPA_ERROR, which produces
exactly one of two outcomes selected by Error::throwEnabled(): the Error is
thrown when throw mode is enabled, otherwise handleAssert runs (abort;
declared noreturn). -/
theorem check_failure_throws_or_aborts (te cond : Bool) (e : Error)
    (h : cond = false) :
    check_error_run false te cond e = some (EUROPA_ERROR te e) ∧
    check_runtime_error_run te cond e = some (EUROPA_ERROR te e) ∧
    (EUROPA_ERROR te e = .thrown e ↔ te = true) ∧
    (EUROPA_ERROR te e = .aborted e ↔ te = false) := by
  subst h
  cases te <;>
    simp [check_error_run, check_runtime_error_run, EUROPA_ERROR]

/-- C3 witness: throw mode enabled, failed condition, a concrete Error. -/
theorem check_failure_throws_or_aborts_witness :
    (false : Bool) = false ∧
    check_error_run false true false (Error.mkMsg "m") =
      some (EUROPA_ERROR true (Error.mkMsg "m")) :=
  ⟨rfl, (check_failure_throws_or_aborts true false (Error.mkMsg "m") rfl).1⟩

/-- dynamic_cast<const IntervalIntDomain*>(&baseDomain)
(IntervalIntTypeFactory.cc line 30): yields the IntervalIntDomain view
exactly when the base domain's kind is IntervalInt, and NULL otherwise. -/
def asIntervalIntDomain : Domain → Option (Int × Int)
  | .intervalInt lb ub => some (lb, ub)
  | _ => none

/-- The Error built by the kind guard at IntervalIntTypeFactory.cc line 31. -/
def kindMismatchError : Error :=
  Error.ctor4 "intervalIntDomain != NULL"
    "tried to create an IntervalIntDomain variable with a different kind of base domain"
    "IntervalIntTypeFactory.cc" 31

/-- The guard check_error(intervalIntDomain != NULL, ...) of
IntervalIntTypeFactory.cc line 31, parameterised by the build flag: under
EUROPA_FAST the check_error expansion is empty and the guard can never
raise. -/
def createVariableKindGuard (fast throwEnabled : Bool) (d : Domain) :
    Option ErrorOutcome :=
  check_error_run fast throwEnabled (asIntervalIntDomain d).isSome
    kindMismatchError

/-- Modelled from the spec: the variable record constructed by
Variable<IntervalIntDomain> (Variable.hh is not among the sources) — a copy
of the base domain serves as both the current and the base domain, next to
the remaining constructor arguments. -/
structure VarRecord where
  currentDomain : Domain
  baseDomain : Domain
  internal : Bool
  canBeSpecified : Bool
  name : String
  parent : Option Nat
  index : Int
deriving DecidableEq, Repr

/-- Modelled from the spec: the engine's registry of live variables; a newly
constructed variable registers itself by appending, and its identity is its
registry slot. -/
structure EngineVars where
  vars : List VarRecord
deriving DecidableEq, Repr

/-- IntervalIntTypeFactory::createVariable (IntervalIntTypeFactory.cc lines
21-39) in the default (non-FAST) build: dynamic_cast to IntervalIntDomain,
the kind guard of line 31 (surfaced here as the Except error, so a failed
guard constructs and registers nothing), then construction of
Variable<IntervalIntDomain> with a copy of the base domain, registration
with the engine, and return of the new identity. -/
def createVariable (eng : EngineVars) (baseDomain : Domain)
    (internal canBeSpecified : Bool) (name : String) (parent : Option Nat)
    (index : Int) : Except Error (Nat × EngineVars) :=
  match asIntervalIntDomain baseDomain with
  | none => .error kindMismatchError
  | some (lb, ub) =>
    let v : VarRecord :=
      ⟨.intervalInt lb ub, .intervalInt lb ub, internal, canBeSpecified,
        name, parent, index⟩
    .ok (eng.vars.length, ⟨eng.vars ++ [v]⟩)

/-- C2: when the base domain's kind is not IntervalInt,
IntervalIntTypeFactory::createVariable fails with the type-mismatch error of
line 31 at the call itself — the result is that error, and no call with such
a base domain ever returns a constructed, registered variable. -/
theorem createVariable_kind_mismatch_fails (eng : EngineVars) (d : Domain)
    (internal canBeSpecified : Bool) (name : String) (parent : Option Nat)
    (index : Int) (h : ∀ lb ub : Int, d ≠ .intervalInt lb ub) :
    createVariable eng d internal canBeSpecified name parent index =
      .error kindMismatchError ∧
    ∀ r, createVariable eng d internal canBeSpecified name parent index ≠
      .ok r := by
  have hcast : asIntervalIntDomain d = none := by
    cases d with
    | intervalInt lb ub => exact absurd rfl (h lb ub)
    | interval lb ub => rfl
    | enumerated m o => rfl
    | boolD m => rfl
    | label m o => rfl
  refine ⟨?_, ?_⟩
  · simp [createVariable, hcast]
  · intro r
    simp [createVariable, hcast]

/-- C2 witness: a Bool-kind base domain is rejected. -/
theorem createVariable_kind_mismatch_fails_witness :
    (∀ lb ub : Int, Domain.boolD [true, false] ≠ .intervalInt lb ub) ∧
    createVariable ⟨[]⟩ (Domain.boolD [true, false]) false true "v" none 0 =
      .error kindMismatchError := by
  constructor
  · intro lb ub h
    cases h
  · exact (createVariable_kind_mismatch_fails ⟨[]⟩ (Domain.boolD [true, false])
      false true "v" none 0 (fun lb ub h => by cases h)).1

/-- C7: for a base domain of kind IntervalInt, createVariable constructs a
new variable holding a copy of that base domain as both its current and its
base domain, registers it with the engine (the registry grows by exactly
that record), and returns a valid identity — the new registry slot. -/
theorem createVariable_intervalInt_succeeds (eng : EngineVars) (lb ub : Int)
    (internal canBeSpecified : Bool) (name : String) (parent : Option Nat)
    (index : Int) :
    ∃ eng' : EngineVars,
      createVariable eng (.intervalInt lb ub) internal canBeSpecified name
          parent index = .ok (eng.vars.length, eng') ∧
      eng'.vars = eng.vars ++
        [⟨.intervalInt lb ub, .intervalInt lb ub, internal, canBeSpecified,
          name, parent, index⟩] ∧
      eng.vars.length < eng'.vars.length := by
  refine ⟨⟨eng.vars ++ [⟨.intervalInt lb ub, .intervalInt lb ub, internal,
    canBeSpecified, name, parent, index⟩]⟩, ?_, rfl, ?_⟩
  · rfl
  · simp

/-- C8: with EUROPA_FAST defined, every check_error expansion is empty — no
condition is evaluated and no error is ever raised, whatever the condition —
so the base-domain kind guard of createVariable performs no detection in
that build for any base domain; check_runtime_error remains active in every
build and raises exactly when its condition is false. -/
theorem fast_build_disables_check_error (te cond : Bool) (e : Error)
    (d : Domain) :
    check_error_run true te cond e = none ∧
    createVariableKindGuard true te d = none ∧
    (check_runtime_error_run te cond e = none ↔ cond = true) := by
  refine ⟨rfl, rfl, ?_⟩
  cases cond <;> simp [check_runtime_error_run]

/-- The C-locale isspace set consulted by atoi: space, tab, newline,
vertical tab, form feed, carriage return. -/
def cIsSpace (c : Char) : Bool :=
  c = ' ' || c = '\t' || c = '\n' || c = Char.ofNat 11 || c = Char.ofNat 12 ||
    c = '\r'

/-- The digit-consuming phase of atoi: fold the maximal run of leading
decimal digits into the accumulator; the first non-digit stops the parse,
and an input with no leading digit yields the accumulator unchanged. -/
def digitsToInt : List Char → Int → Int
  | [], acc => acc
  | c :: cs, acc =>
    if c.isDigit then digitsToInt cs (acc * 10 + ((c.toNat : Int) - 48))
    else acc

/-- C's atoi on the characters of the argument: skip leading whitespace,
consume one optional sign, then the maximal run of decimal digits; when no
digit is consumed the result is 0. -/
def atoi (s : List Char) : Int :=
  match s.dropWhile cIsSpace with
  | [] => 0
  | c :: rest =>
    if c = '-' then -(digitsToInt rest 0)
    else if c = '+' then digitsToInt rest 0
    else digitsToInt (c :: rest) 0

/-- IntervalIntTypeFactory::createValue (IntervalIntTypeFactory.cc lines
47-50): return atoi(value.c_str()) — a plain numeric result with no failure
path of any kind. -/
def createValue (value : String) : Int :=
  atoi value.data

/-- A well-formed integer literal in the claim's sense: one optional sign
followed by one or more decimal digits and nothing else. -/
def wellFormedIntLiteral (s : String) : Bool :=
  match s.data with
  | [] => false
  | c :: rest =>
    if c = '-' || c = '+' then !rest.isEmpty && rest.all Char.isDigit
    else (c :: rest).all Char.isDigit

/-- True when the head of a character list is absent or not a digit. -/
def noDigitHead : List Char → Bool
  | [] => true
  | c :: _ => !c.isDigit

/-- The inputs on which atoi consumes no digit at all: after whitespace
skipping and one optional sign, the remainder is empty or starts with a
non-digit. -/
def noParsableDigits (s : String) : Bool :=
  match s.data.dropWhile cIsSpace with
  | [] => true
  | c :: rest =>
    if c = '-' then noDigitHead rest
    else if c = '+' then noDigitHead rest
    else !c.isDigit

/-- C1 counterexample: "abc" is not a well-formed integer literal, yet
createValue does not fail — it returns the value 0, the atoi default, so a
malformed literal is silently given a default result rather than a parse
error. -/
theorem createValue_malformed_counterexample :
    wellFormedIntLiteral "abc" = false ∧ createValue "abc" = 0 := by
  constructor
  · rfl
  · rfl

theorem digitsToInt_of_noDigitHead (l : List Char) (acc : Int)
    (h : noDigitHead l = true) : digitsToInt l acc = acc := by
  cases l with
  | nil => rfl
  | cons c cs =>
    simp only [noDigitHead, Bool.not_eq_true'] at h
    simp [digitsToInt, h]

/-- C1 amended: createValue never reports a parse error; on every literal in
which atoi finds no digit to consume (after optional whitespace and one
optional sign the remainder does not start with a digit) it silently returns
the default value 0. -/
theorem createValue_malformed_returns_zero (s : String)
    (h : noParsableDigits s = true) : createValue s = 0 := by
  unfold createValue atoi
  unfold noParsableDigits at h
  cases hd : s.data.dropWhile cIsSpace with
  | nil => simp
  | cons c rest =>
    rw [hd] at h
    by_cases hm : c = '-'
    · simp only [hm, if_true] at h ⊢
      simp [digitsToInt_of_noDigitHead rest 0 h]
    · by_cases hp : c = '+'
      · simp only [hm, hp, if_false, if_true] at h ⊢
        simp [digitsToInt_of_noDigitHead rest 0 h]
      · simp only [hm, hp, if_false] at h ⊢
        simp only [Bool.not_eq_true'] at h
        simp [digitsToInt, h]

/-- C1 amended witness: the malformed literal "abc". -/
theorem createValue_malformed_returns_zero_witness :
    noParsableDigits "abc" = true ∧ createValue "abc" = 0 :=
  ⟨rfl, createValue_malformed_returns_zero "abc" rfl⟩

/-- std::string::find scanning from the left: try each start position in
turn and report the first at which the pattern is a prefix of the remaining
suffix; exhaustion corresponds to npos. -/
def strFindAux (p : List Char) : List Char → Nat → Option Nat
  | [], i => if p.isPrefixOf [] then some i else none
  | c :: ms, i =>
    if p.isPrefixOf (c :: ms) then some i else strFindAux p ms (i + 1)

/-- marker.find(pattern) as used by markerMatches, with npos rendered as
none. -/
def strFind (m p : List Char) : Option Nat :=
  strFindAux p m 0

/-- DebugMessage::markerMatches (DebugMsg.hh lines 408-415): an empty
pattern matches; a marker shorter than the pattern does not; otherwise
marker.find(pattern) is compared against the marker length (find returns
npos — never below the length — exactly when the pattern is absent). -/
def markerMatches (marker pattern : String) : Bool :=
  if pattern.data.length < 1 then true
  else if marker.data.length < pattern.data.length then false
  else
    match strFind marker.data pattern.data with
    | none => false
    | some i => decide (i < marker.data.length)

theorem string_length_data (s : String) : s.length = s.data.length := rfl

theorem isPrefixOf_nil_iff (p : List Char) :
    p.isPrefixOf ([] : List Char) = true ↔ p = [] := by
  cases p <;> simp [List.isPrefixOf]

theorem strFindAux_isSome_iff (p : List Char) (m : List Char) :
    ∀ i : Nat,
      (strFindAux p m i).isSome = true ↔ ∃ l r, m = l ++ p ++ r := by
  induction m with
  | nil =>
    intro i
    simp only [strFindAux]
    by_cases h : p.isPrefixOf ([] : List Char) = true
    · have hp : p = [] := (isPrefixOf_nil_iff p).mp h
      subst hp
      simp
    · have hp : p ≠ [] := fun hpn => h ((isPrefixOf_nil_iff p).mpr hpn)
      rw [if_neg h]
      simp only [Option.isSome_none, Bool.false_eq_true, false_iff]
      rintro ⟨l, r, hlr⟩
      exact hp (List.append_eq_nil.mp (List.append_eq_nil.mp hlr.symm).1).2
  | cons c ms ih =>
    intro i
    simp only [strFindAux]
    by_cases h : p.isPrefixOf (c :: ms) = true
    · rw [if_pos h]
      simp only [Option.isSome_some, true_iff]
      obtain ⟨t, ht⟩ := List.isPrefixOf_iff_prefix.mp h
      exact ⟨[], t, by simp [ht]⟩
    · rw [if_neg h]
      rw [ih (i + 1)]
      constructor
      · rintro ⟨l, r, hlr⟩
        exact ⟨c :: l, r, by simp [hlr]⟩
      · rintro ⟨l, r, hlr⟩
        cases l with
        | nil =>
          exfalso
          apply h
          apply List.isPrefixOf_iff_prefix.mpr
          exact ⟨r, by simpa using hlr.symm⟩
        | cons a l' =>
          rw [List.cons_append, List.cons_append, List.cons.injEq] at hlr
          exact ⟨l', r, hlr.2⟩

theorem strFindAux_lt (p : List Char) (hp : p ≠ []) (m : List Char) :
    ∀ i j : Nat, strFindAux p m i = some j → j < i + m.length := by
  induction m with
  | nil =>
    intro i j h
    simp only [strFindAux] at h
    have : ¬ p.isPrefixOf ([] : List Char) = true :=
      fun hpre => hp ((isPrefixOf_nil_iff p).mp hpre)
    simp [this] at h
  | cons c ms ih =>
    intro i j h
    simp only [strFindAux] at h
    by_cases hpre : p.isPrefixOf (c :: ms) = true
    · simp only [hpre, if_true, Option.some.injEq] at h
      subst h
      simp
    · simp only [hpre, if_false] at h
      have := ih (i + 1) j h
      simp only [List.length_cons]
      omega

/-- C10: markerMatches is substring containment — the empty pattern matches
every marker, a marker shorter than the pattern never matches, and in
general the match succeeds exactly when the pattern is empty or occurs as a
contiguous substring of the marker (so pattern-driven enabling or finding of
messages, which goes through this single test, selects every message under
an empty pattern). -/
theorem markerMatches_substring (m p : String) :
    markerMatches m "" = true ∧
    (p ≠ "" → m.data.length < p.data.length → markerMatches m p = false) ∧
    (markerMatches m p = true ↔
      (p = "" ∨ ∃ l r, m.data = l ++ p.data ++ r)) := by
  have hdata : ∀ q : String, q ≠ "" → q.data ≠ [] := by
    intro q hq hnil
    apply hq
    cases q with
    | mk d => cases hnil; rfl
  refine ⟨rfl, ?_, ?_⟩
  · intro hp hlen
    have hpd : p.data ≠ [] := hdata p hp
    have hplen : ¬ p.data.length < 1 := by
      cases hq : p.data with
      | nil => exact absurd hq hpd
      | cons a l => simp [hq]
    unfold markerMatches
    rw [if_neg hplen, if_pos hlen]
  · by_cases hp : p = ""
    · subst hp
      exact ⟨fun _ => Or.inl rfl, fun _ => rfl⟩
    · have hpd : p.data ≠ [] := hdata p hp
      have hplen : ¬ p.data.length < 1 := by
        cases hq : p.data with
        | nil => exact absurd hq hpd
        | cons a l => simp [hq]
      unfold markerMatches
      rw [if_neg hplen]
      by_cases hlen : m.data.length < p.data.length
      · rw [if_pos hlen]
        constructor
        · intro h
          exact Bool.noConfusion h
        · rintro (h | ⟨l, r, hlr⟩)
          · exact absurd h hp
          · exfalso
            have hl : m.data.length = (l ++ p.data ++ r).length := by rw [hlr]
            simp only [List.length_append] at hl
            omega
      · rw [if_neg hlen]
        cases hf : strFind m.data p.data with
        | none =>
          constructor
          · intro h
            exact Bool.noConfusion h
          · rintro (h | hsub)
            · exact absurd h hp
            · have hsome : (strFindAux p.data m.data 0).isSome = true :=
                (strFindAux_isSome_iff p.data m.data 0).mpr hsub
              rw [show strFindAux p.data m.data 0 = strFind m.data p.data from rfl,
                hf] at hsome
              exact Bool.noConfusion hsome
        | some i =>
          have hi : i < m.data.length := by
            have := strFindAux_lt p.data hpd m.data 0 i hf
            omega
          refine ⟨fun _ => Or.inr ?_, fun _ => decide_eq_true hi⟩
          have hsome : (strFindAux p.data m.data 0).isSome = true := by
            rw [show strFindAux p.data m.data 0 = strFind m.data p.data from rfl, hf]
            rfl
          exact (strFindAux_isSome_iff p.data m.data 0).mp hsome

/-- C10 witness: pattern "bc" occurs inside marker "abcd"; the
characterization applied at these strings. -/
theorem markerMatches_substring_witness :
    markerMatches "abcd" "" = true ∧
    (markerMatches "abcd" "bc" = true ↔
      ("bc" = "" ∨ ∃ l r, "abcd".data = l ++ "bc".data ++ r)) :=
  ⟨(markerMatches_substring "abcd" "bc").1,
   (markerMatches_substring "abcd" "bc").2.2⟩

/-- Modelled from the spec: the engine-wide consistency flag. -/
inductive CState where
  | unknown
  | consistent
  | inconsistent
deriving DecidableEq, Repr

/-- Modelled from the spec: a constraint — its ordered scope of variable
slots, its propagation function (producing a proposed new domain for each
scope member, which the engine intersects into the current one), and the
index of the propagator responsible for its kind. -/
structure ConstraintM where
  scope : List Nat
  propFun : List Domain → List Domain
  propIdx : Nat

/-- Modelled from the spec: the propagation-relevant state of the
ConstraintEngine — the domain of each variable slot, the constraint
registry, one FIFO agenda per propagator in priority order, and the
consistency flag. -/
structure Engine where
  domains : List Domain
  constraints : List ConstraintM
  agendas : List (List Nat)
  state : CState

/-- A default placeholder domain for out-of-range lookups (a scope slot
outside the registry is a model error handled elsewhere). -/
def dfltDomain : Domain := Domain.intervalInt 0 0

/-- Write a batch of (slot, domain) updates into the domain table. -/
def applyUpdates : List (Nat × Domain) → List Domain → List Domain
  | [], doms => doms
  | u :: rest, doms => applyUpdates rest (doms.set u.1 u.2)

theorem applyUpdates_getElem?_of_notMem (ups : List (Nat × Domain))
    (doms : List Domain) (v : Nat) (h : v ∉ ups.map Prod.fst) :
    (applyUpdates ups doms)[v]? = doms[v]? := by
  induction ups generalizing doms with
  | nil => rfl
  | cons u rest ih =>
    simp only [List.map_cons, List.mem_cons] at h
    push_neg at h
    rw [applyUpdates, ih _ h.2]
    exact List.getElem?_set_ne (fun hEq => h.1 hEq.symm)

/-- Current domains of a scope, in scope order. -/
def getDoms (doms : List Domain) (scope : List Nat) : List Domain :=
  scope.map (fun v => doms.getD v dfltDomain)

/-- Modelled from the spec: the updates produced by one execution of
constraint j — its propagation function inspects the current domains of its
scope, and each proposal is intersected into the corresponding current
domain (a constraint may only restrict its own scope members). -/
def execUpdates (e : Engine) (j : Nat) : List (Nat × Domain) :=
  match e.constraints[j]? with
  | none => []
  | some c =>
    (c.scope.zip ((getDoms e.domains c.scope).zip
        (c.propFun (getDoms e.domains c.scope)))).map
      (fun u => (u.1, (u.2.1).intersect u.2.2))

theorem execUpdates_fst_mem (e : Engine) (j : Nat) (u : Nat × Domain)
    (hu : u ∈ execUpdates e j) :
    ∃ sc, e.constraints[j]? = some sc ∧ u.1 ∈ sc.scope := by
  unfold execUpdates at hu
  cases hc : e.constraints[j]? with
  | none =>
    rw [hc] at hu
    cases hu
  | some sc =>
    rw [hc] at hu
    refine ⟨sc, rfl, ?_⟩
    simp only [List.mem_map] at hu
    obtain ⟨w, hmem, hEq⟩ := hu
    have hw := (List.of_mem_zip hmem).1
    cases hEq
    exact hw

/-- Modelled from the spec: append constraint k to the agenda of its
propagator unless it is already pending (FIFO order with duplicate
suppression). -/
def enqueueC (agendas : List (List Nat)) (propIdx k : Nat) :
    List (List Nat) :=
  match agendas[propIdx]? with
  | none => agendas
  | some a => if a.contains k then agendas else agendas.set propIdx (a ++ [k])

/-- Modelled from the spec: after variable v changed, activate every
constraint whose scope references v into its propagator's agenda — except
the currently executing constraint, whose re-activation is suppressed for
the duration of its own invocation. -/
def activateWatchers (cs : List ConstraintM) (executing v : Nat)
    (agendas : List (List Nat)) : List (List Nat) :=
  (List.range cs.length).foldl
    (fun ags k =>
      match cs[k]? with
      | none => ags
      | some c =>
        if k ≠ executing ∧ v ∈ c.scope then enqueueC ags c.propIdx k else ags)
    agendas

/-- Modelled from the spec: execute one constraint.  The scope updates are
written into the domain table; if any update emptied a domain the engine is
marked Inconsistent on the spot and nothing else happens (no agenda is
touched); otherwise every constraint watching a changed variable is
activated. -/
def execConstraint (e : Engine) (j : Nat) : Engine × Bool :=
  if (execUpdates e j).any (fun u => (u.2).isEmptyD) then
    ({ e with
        domains := applyUpdates (execUpdates e j) e.domains
        state := .inconsistent },
      true)
  else
    ({ e with
        domains := applyUpdates (execUpdates e j) e.domains
        agendas :=
          ((execUpdates e j).filter
              (fun u => decide (e.domains.getD u.1 dfltDomain ≠ u.2))).foldl
            (fun ags u => activateWatchers e.constraints j u.1 ags)
            e.agendas },
      false)

theorem execConstraint_emptied (e : Engine) (j : Nat)
    (h : (execConstraint e j).2 = true) :
    (execConstraint e j).1 =
      { e with
        domains := applyUpdates (execUpdates e j) e.domains
        state := .inconsistent } := by
  unfold execConstraint at h ⊢
  by_cases hc : (execUpdates e j).any (fun u => (u.2).isEmptyD) = true
  · rw [if_pos hc]
  · rw [if_neg hc] at h
    cases h

theorem execConstraint_outside_scope (e : Engine) (j v : Nat)
    (h : ∀ sc, e.constraints[j]? = some sc → v ∉ sc.scope) :
    ((execConstraint e j).1).domains[v]? = e.domains[v]? := by
  have hv : v ∉ (execUpdates e j).map Prod.fst := by
    intro hmem
    simp only [List.mem_map] at hmem
    obtain ⟨u, hu, hfst⟩ := hmem
    obtain ⟨sc, hsc, hscope⟩ := execUpdates_fst_mem e j u hu
    exact h sc hsc (hfst ▸ hscope)
  unfold execConstraint
  by_cases hc : (execUpdates e j).any (fun u => (u.2).isEmptyD) = true
  · rw [if_pos hc]
    exact applyUpdates_getElem?_of_notMem _ _ _ hv
  · rw [if_neg hc]
    exact applyUpdates_getElem?_of_notMem _ _ _ hv

/-- Modelled from the spec: select the highest-priority propagator with a
non-empty agenda and pop its front (FIFO) constraint; the result is the
propagator's priority index, the popped constraint and the agendas after
the pop. -/
def selectC : List (List Nat) → Option (Nat × Nat × List (List Nat))
  | [] => none
  | [] :: rest =>
    match selectC rest with
    | none => none
    | some (i, c, rest') => some (i + 1, c, [] :: rest')
  | (c :: a) :: rest => some (0, c, a :: rest)

theorem selectC_spec (ags : List (List Nat)) (i c : Nat)
    (ags' : List (List Nat)) (h : selectC ags = some (i, c, ags')) :
    ∃ rest, ags[i]? = some (c :: rest) ∧ ags' = ags.set i rest ∧
      ∀ j, j < i → ags[j]? = some [] := by
  induction ags generalizing i ags' with
  | nil => cases h
  | cons a rest ih =>
    cases a with
    | nil =>
      simp only [selectC] at h
      cases hr : selectC rest with
      | none => rw [hr] at h; cases h
      | some t =>
        obtain ⟨i0, c0, rest0⟩ := t
        rw [hr] at h
        simp only [Option.some.injEq, Prod.mk.injEq] at h
        obtain ⟨hi, hc, hags⟩ := h
        subst hi hc hags
        obtain ⟨tl, h1, h2, h3⟩ := ih i0 rest0 hr
        refine ⟨tl, by simpa using h1, by simp [h2], ?_⟩
        intro j hj
        cases j with
        | zero => simp
        | succ j' => simpa using h3 j' (by omega)
    | cons x a' =>
      simp only [selectC, Option.some.injEq, Prod.mk.injEq] at h
      obtain ⟨hi, hc, hags⟩ := h
      subst hi hc hags
      refine ⟨a', by simp, by simp, ?_⟩
      intro j hj
      omega

/-- Modelled from the spec: the engine-level fixpoint loop of propagate() —
repeat until every agenda is empty or the engine has become Inconsistent;
each iteration pops one constraint from the highest-priority non-empty
agenda in FIFO order and executes it; an EMPTIED event stops the whole loop
at that instant; draining all agendas without emptying a domain sets
Consistent.  The fuel bounds the iterations (termination itself is the
constraints' monotonicity obligation, which the engine does not check). -/
def propLoop : Nat → Engine → List Nat × Engine
  | 0, e => ([], e)
  | fuel + 1, e =>
    if e.state = .inconsistent then ([], e)
    else
      match selectC e.agendas with
      | none => ([], { e with state := .consistent })
      | some (_, c, ags') =>
        if (execConstraint { e with agendas := ags' } c).2 then
          ([c], (execConstraint { e with agendas := ags' } c).1)
        else
          (c :: (propLoop fuel (execConstraint { e with agendas := ags' } c).1).1,
            (propLoop fuel (execConstraint { e with agendas := ags' } c).1).2)

/-- C4: in a propagation run, as soon as a constraint execution produces an
EMPTIED domain event the engine state becomes Inconsistent and the loop
stops at that instant: the fatal constraint is the last (here: only) entry
of the remaining trace, no constraint scheduled in any propagator's agenda
executes afterwards, every agenda is left exactly as it stood after the
single pop that dispatched the fatal constraint, and every variable outside
that constraint's scope keeps the domain it had at that instant.  (The
statement applies at every iteration of a run, since the loop re-enters
itself on the intermediate engine.) -/
theorem emptied_halts_propagation (fuel : Nat) (e : Engine) (i c : Nat)
    (ags' : List (List Nat))
    (hstate : e.state ≠ .inconsistent)
    (hsel : selectC e.agendas = some (i, c, ags'))
    (hemp : (execConstraint { e with agendas := ags' } c).2 = true) :
    propLoop (fuel + 1) e =
      ([c], (execConstraint { e with agendas := ags' } c).1) ∧
    (execConstraint { e with agendas := ags' } c).1.state = .inconsistent ∧
    (execConstraint { e with agendas := ags' } c).1.agendas = ags' ∧
    ∀ v : Nat, (∀ sc, e.constraints[c]? = some sc → v ∉ sc.scope) →
      (execConstraint { e with agendas := ags' } c).1.domains[v]? =
        e.domains[v]? := by
  have hexec := execConstraint_emptied { e with agendas := ags' } c hemp
  refine ⟨?_, ?_, ?_, ?_⟩
  · rw [propLoop, if_neg hstate, hsel]
    simp only [hemp, if_true]
  · rw [hexec]
  · rw [hexec]
  · intro v hv
    exact execConstraint_outside_scope { e with agendas := ags' } c v hv

/-- Evaluation of the witness engine's fatal execution: the emptied flag. -/
theorem witness_exec_emptied_aux (e : Engine) (j : Nat)
    (h : (execUpdates e j).any (fun u => (u.2).isEmptyD) = true) :
    (execConstraint e j).2 = true := by
  unfold execConstraint
  rw [if_pos h]

/-- A one-variable, one-constraint engine whose constraint empties the
variable's domain as soon as it runs: variable 0 starts at [0,5] and the
constraint proposes the empty interval [3,2]. -/
def witnessEngine : Engine :=
  ⟨[Domain.intervalInt 0 5],
   [⟨[0], fun _ => [Domain.intervalInt 3 2], 0⟩],
   [[0]], .unknown⟩

/-- C4 witness: on the one-constraint engine the run executes exactly the
fatal constraint and stops in the Inconsistent state it produced. -/
theorem emptied_halts_propagation_witness :
    witnessEngine.state ≠ .inconsistent ∧
    selectC witnessEngine.agendas = some (0, 0, [[]]) ∧
    (execConstraint { witnessEngine with agendas := [[]] } 0).2 = true ∧
    propLoop 4 witnessEngine =
      ([0], (execConstraint { witnessEngine with agendas := [[]] } 0).1) :=
  ⟨by decide, rfl,
   witness_exec_emptied_aux { witnessEngine with agendas := [[]] } 0 (by decide),
   (emptied_halts_propagation 3 witnessEngine 0 0 [[]]
     (by decide) rfl
     (witness_exec_emptied_aux { witnessEngine with agendas := [[]] } 0
       (by decide))).1⟩

/-- Modelled from the spec: one iteration of the fixpoint loop as a
relation — constraint c may fire, producing e', exactly when the engine is
not Inconsistent, c stands at the front of the agenda of a propagator all
of whose higher-priority peers are idle (the ordering rule: priority tier,
then FIFO within the tier), and e' results from popping c and executing
it. -/
inductive StepR : Engine → Nat → Engine → Prop where
  | step (e : Engine) (i c : Nat) (rest : List Nat)
      (hstate : e.state ≠ .inconsistent)
      (hag : e.agendas[i]? = some (c :: rest))
      (hhigh : ∀ j, j < i → e.agendas[j]? = some [])
      : StepR e c (execConstraint { e with agendas := e.agendas.set i rest } c).1

theorem stepR_deterministic (e : Engine) (c1 c2 : Nat) (e1 e2 : Engine)
    (h1 : StepR e c1 e1) (h2 : StepR e c2 e2) : c1 = c2 ∧ e1 = e2 := by
  cases h1 with
  | step i1 _ rest1 hstate1 hag1 hhigh1 =>
    cases h2 with
    | step i2 _ rest2 hstate2 hag2 hhigh2 =>
      have hi : i1 = i2 := by
        by_contra hne
        rcases Nat.lt_or_ge i1 i2 with hlt | hge
        · have hcontra := hhigh2 i1 hlt
          rw [hag1] at hcontra
          simp at hcontra
        · have hlt2 : i2 < i1 := by omega
          have hcontra := hhigh1 i2 hlt2
          rw [hag2] at hcontra
          simp at hcontra
      subst hi
      rw [hag1] at hag2
      injection hag2 with h
      injection h with hc hr
      subst hc
      subst hr
      exact ⟨rfl, rfl⟩

/-- The executable selection rule realises the relational step: whenever
selectC picks a constraint, the popped-and-executed engine is the unique
StepR successor. -/
theorem stepR_of_selectC (e : Engine) (i c : Nat) (ags' : List (List Nat))
    (hstate : e.state ≠ .inconsistent)
    (hsel : selectC e.agendas = some (i, c, ags')) :
    StepR e c (execConstraint { e with agendas := ags' } c).1 := by
  obtain ⟨rest, hag, hset, hhigh⟩ := selectC_spec e.agendas i c ags' hsel
  subst hset
  exact StepR.step e i c rest hstate hag hhigh

/-- Modelled from the spec: a complete propagation run — steps chain until
either the engine is Inconsistent (the run stops at the instant a domain
emptied) or every agenda is empty, at which point the engine is marked
Consistent. -/
inductive RunR : Engine → List Nat → Engine → Prop where
  | inconsistent (e : Engine) (h : e.state = .inconsistent) : RunR e [] e
  | done (e : Engine) (hstate : e.state ≠ .inconsistent)
      (hempty : ∀ (i : Nat) (a : List Nat), e.agendas[i]? = some a → a = []) :
      RunR e [] { e with state := .consistent }
  | more (e : Engine) (c : Nat) (e1 : Engine) (tr : List Nat) (e2 : Engine)
      (hstep : StepR e c e1) (hrest : RunR e1 tr e2) :
      RunR e (c :: tr) e2

theorem runR_deterministic (e : Engine) (tr1 tr2 : List Nat) (e1 e2 : Engine)
    (h1 : RunR e tr1 e1) (h2 : RunR e tr2 e2) : tr1 = tr2 ∧ e1 = e2 := by
  induction h1 generalizing tr2 e2 with
  | inconsistent eX h =>
    cases h2 with
    | inconsistent _ _ => exact ⟨rfl, rfl⟩
    | done _ hst _ => exact absurd h hst
    | more _ c e1' tr' e2' hstep _ =>
      cases hstep with
      | step _ _ _ hst _ _ => exact absurd h hst
  | done eX hst hempty =>
    cases h2 with
    | inconsistent _ h => exact absurd h hst
    | done _ _ _ => exact ⟨rfl, rfl⟩
    | more _ c e1' tr' e2' hstep _ =>
      cases hstep with
      | step i c' rest hst hag hhigh =>
        have hcontra := hempty i _ hag
        cases hcontra
  | more eX c e1X trX e2X hstep hrest ih =>
    cases h2 with
    | inconsistent _ h =>
      cases hstep with
      | step _ _ _ hst _ _ => exact absurd h hst
    | done _ _ hempty =>
      cases hstep with
      | step i c' rest hst hag hhigh =>
        have hcontra := hempty i _ hag
        cases hcontra
    | more _ c2 e1'' tr'' e2'' hstep2 hrest2 =>
      obtain ⟨hc, he⟩ := stepR_deterministic _ _ _ _ _ hstep hstep2
      subst hc
      subst he
      obtain ⟨ht, he2⟩ := ih _ _ hrest2
      exact ⟨by rw [ht], he2⟩

/-- Modelled from the spec: an external restriction of variable v by domain
d — d is intersected into v's current domain and every constraint watching
v is activated (no constraint is executing, encoded by the out-of-range
index). -/
def applyRestriction (e : Engine) (v : Nat) (d : Domain) : Engine :=
  { e with
    domains := e.domains.set v ((e.domains.getD v dfltDomain).intersect d)
    agendas := activateWatchers e.constraints e.constraints.length v e.agendas }

/-- Modelled from the spec: replaying a sequence of external restrictions,
each followed by a complete propagation run, collecting the concatenated
trace of constraint executions. -/
inductive ReplayR : Engine → List (Nat × Domain) → List Nat → Engine → Prop where
  | nil (e : Engine) : ReplayR e [] [] e
  | cons (e : Engine) (v : Nat) (d : Domain) (edits : List (Nat × Domain))
      (tr1 tr2 : List Nat) (e1 e2 : Engine)
      (hrun : RunR (applyRestriction e v d) tr1 e1)
      (hrest : ReplayR e1 edits tr2 e2) :
      ReplayR e ((v, d) :: edits) (tr1 ++ tr2) e2

theorem replayR_deterministic (e : Engine) (edits : List (Nat × Domain))
    (tr1 tr2 : List Nat) (f1 f2 : Engine)
    (h1 : ReplayR e edits tr1 f1) (h2 : ReplayR e edits tr2 f2) :
    tr1 = tr2 ∧ f1 = f2 := by
  induction h1 generalizing tr2 f2 with
  | nil eX =>
    cases h2 with
    | nil _ => exact ⟨rfl, rfl⟩
  | cons eX v d editsX trA trB e1X e2X hrun hrest ih =>
    cases h2 with
    | cons _ _ _ _ trC trD eC eD hrunC hrestC =>
      obtain ⟨ht, he⟩ := runR_deterministic _ _ _ _ _ hrun hrunC
      subst ht
      subst he
      obtain ⟨ht2, he2⟩ := ih _ _ hrestC
      exact ⟨by rw [ht2], he2⟩

/-- C5: two-run determinism of propagation — for two freshly constructed,
structurally identical engines, replaying the same sequence of external
restrictions (each followed by a full propagation run whose evaluation
order is fixed by propagator priority tier, then FIFO insertion order
within a tier) produces the same sequence of constraint executions and the
same final domain of every variable. -/
theorem replay_two_run_determinism (eA eB : Engine)
    (edits : List (Nat × Domain)) (trA trB : List Nat) (fA fB : Engine)
    (hEq : eA = eB) (hA : ReplayR eA edits trA fA)
    (hB : ReplayR eB edits trB fB) :
    trA = trB ∧ ∀ v : Nat, fA.domains[v]? = fB.domains[v]? := by
  subst hEq
  obtain ⟨ht, he⟩ := replayR_deterministic eA edits trA trB fA fB hA hB
  exact ⟨ht, fun v => by rw [he]⟩

/-- A constraint-free one-variable engine used to exercise a replay. -/
def replayWitnessEngine : Engine :=
  ⟨[Domain.intervalInt 0 5], [], [], .unknown⟩

/-- The (unique) propagation run after restricting variable 0 to [1,3] on
the constraint-free engine: all agendas are empty, so the run immediately
marks the engine Consistent. -/
theorem replayWitness_run :
    RunR (applyRestriction replayWitnessEngine 0 (Domain.intervalInt 1 3)) []
      { applyRestriction replayWitnessEngine 0 (Domain.intervalInt 1 3) with
        state := .consistent } := by
  apply RunR.done
  · decide
  · intro i a h
    simp [applyRestriction, activateWatchers, replayWitnessEngine] at h

/-- C5 witness: replaying the single restriction of variable 0 to [1,3] on
two copies of the constraint-free engine, via the two (unique) replay
derivations. -/
theorem replay_two_run_determinism_witness :
    (([] : List Nat) ++ [] = ([] : List Nat) ++ []) ∧
    ∀ v : Nat,
      ({ applyRestriction replayWitnessEngine 0 (Domain.intervalInt 1 3) with
          state := CState.consistent }).domains[v]? =
        ({ applyRestriction replayWitnessEngine 0 (Domain.intervalInt 1 3) with
            state := CState.consistent }).domains[v]? :=
  replay_two_run_determinism replayWitnessEngine replayWitnessEngine
    [(0, Domain.intervalInt 1 3)] ([] ++ []) ([] ++ [])
    { applyRestriction replayWitnessEngine 0 (Domain.intervalInt 1 3) with
      state := CState.consistent }
    { applyRestriction replayWitnessEngine 0 (Domain.intervalInt 1 3) with
      state := CState.consistent }
    rfl
    (ReplayR.cons _ _ _ _ _ _ _ _ replayWitness_run (ReplayR.nil _))
    (ReplayR.cons _ _ _ _ _ _ _ _ replayWitness_run (ReplayR.nil _))

end EUROPA
